import Mathlib

/-!
# Verification of the kindle-highlights-exporter UI-automation core

Shallow embedding of the extension's automation primitives and a check of the
frozen specification claims against them.

Modelling conventions:
* Time is discrete, in milliseconds since the operation started; `Nat`.
* The DOM, as seen through a fixed CSS selector, is abstracted by a function
  `present : Nat → Bool` giving whether `document.querySelector(sel)` would
  return a node at that instant.  Mutation-observer callbacks are abstracted by
  `muts : Nat → Bool` (a structural mutation fires at that instant).
* JavaScript timers are idealized: a `setInterval(f, p)` tick `k` runs at time
  `k * p`, and `Date.now() - startTime` at that tick is exactly `k * p`.
  `setInterval` periods are at least 1 ms (browsers clamp smaller values), so
  theorems about polling carry a `1 ≤ pollInterval` hypothesis.
* Promises that can only resolve (the source never rejects these) are modelled
  as total functions returning an outcome record.
-/

/-! ## Element Locator: `waitForElement` (src/notebooklm.js 161-210, src/unnamed/part_009 10-59)

The source polls `document.querySelector` every `pollInterval` ms; when the
timeout is exhausted it installs a one-shot `MutationObserver` for a final
1000 ms grace window, then resolves `null`. -/

/-- Outcome of a `waitForElement` call: the time at which the element was
found (`none` when the call gave up) and the total elapsed time at resolution. -/
structure WaitOutcome where
  found : Option Nat
  elapsedMs : Nat
  deriving DecidableEq, Repr

/-- The fixed grace window of the mutation-observer fallback
(`setTimeout(..., 1000)` in the source). -/
def graceMs : Nat := 1000

/-- The one-shot `MutationObserver` phase entered after polling exhausts, at
absolute time `t`: every mutation during `(t, t + graceMs]` re-runs
`querySelector`; the final fallback timeout resolves `null` at `t + graceMs`. -/
def observerPhase (present muts : Nat → Bool) (t : Nat) : WaitOutcome :=
  match (List.range graceMs).find? (fun d => muts (t + 1 + d) && present (t + 1 + d)) with
  | some d => ⟨some (t + 1 + d), t + 1 + d⟩
  | none => ⟨none, t + graceMs⟩

/-- The `setInterval` polling loop of `waitForElement`, starting at tick `k`
(absolute time `k * pollInterval`).  Each tick first re-runs `querySelector`,
then checks the timeout; on timeout it hands over to `observerPhase`.  `fuel`
bounds the number of ticks; the callers below always supply enough fuel for
the timeout check to fire first, so the fuel-exhaustion branch (which behaves
like a tick at which the timeout has been reached) is never the deciding one. -/
def pollLoop (present muts : Nat → Bool) (timeout pollInterval : Nat) :
    Nat → Nat → WaitOutcome
  | 0, k =>
    if present (k * pollInterval) then ⟨some (k * pollInterval), k * pollInterval⟩
    else observerPhase present muts (k * pollInterval)
  | fuel + 1, k =>
    if present (k * pollInterval) then ⟨some (k * pollInterval), k * pollInterval⟩
    else if timeout ≤ k * pollInterval then observerPhase present muts (k * pollInterval)
    else pollLoop present muts timeout pollInterval fuel (k + 1)

/-- `waitForElement(selector, timeout, pollInterval)`: immediate check, then
the polling loop from tick 1. -/
def waitForElement (present muts : Nat → Bool) (timeout pollInterval : Nat) : WaitOutcome :=
  if present 0 then ⟨some 0, 0⟩
  else pollLoop present muts timeout pollInterval (timeout + 1) 1

/-! ## Element Locator companion: `waitForElementToDisappear`
(src/notebooklm.js 218-244, src/unnamed/part_009 67-93)

Polls every 100 ms for absence; resolves when absent, and also resolves when
the timeout is reached with the element still present. -/

/-- Outcome of `waitForElementToDisappear`: elapsed time at resolution and
whether resolution was due to the element actually being gone (as opposed to
the timeout being reached with the element still present). -/
structure DisOutcome where
  elapsedMs : Nat
  disappeared : Bool
  deriving DecidableEq, Repr

/-- The fixed 100 ms poll period of `waitForElementToDisappear`. -/
def disappearPollMs : Nat := 100

/-- Polling loop of `waitForElementToDisappear` from tick `k` (absolute time
`k * disappearPollMs`): resolve as disappeared when the element is absent,
resolve anyway once the timeout is reached. -/
def disLoop (present : Nat → Bool) (timeout : Nat) : Nat → Nat → DisOutcome
  | 0, k =>
    if present (k * disappearPollMs) then ⟨k * disappearPollMs, false⟩
    else ⟨k * disappearPollMs, true⟩
  | fuel + 1, k =>
    if !present (k * disappearPollMs) then ⟨k * disappearPollMs, true⟩
    else if timeout ≤ k * disappearPollMs then ⟨k * disappearPollMs, false⟩
    else disLoop present timeout fuel (k + 1)

/-- `waitForElementToDisappear(selector, timeout)`: immediate absence check,
then the 100 ms polling loop from tick 1. -/
def waitForElementToDisappear (present : Nat → Bool) (timeout : Nat) : DisOutcome :=
  if !present 0 then ⟨0, true⟩
  else disLoop present timeout (timeout + 1) 1

/-! ## Ordered candidate rules: the locator cascade
(src/notebooklm.js 571-596, src/notebooklm_flashcards.js 553-579)

The source tries selectors strictly in order, each with its own
`waitForElement` call, moving to the next only when the previous one resolved
`null`:  `let x = await waitForElement(sel1, t1); if (!x) x = await
waitForElement(sel2, t2); ...`.  A rule is one such candidate: its target's
presence over the local clock of its own wait, the mutations its observer
phase would see, and its timeout/poll period. -/

/-- One candidate rule of a locator cascade. -/
structure LocRule where
  present : Nat → Bool
  muts : Nat → Bool
  timeout : Nat
  pollInterval : Nat

/-- The cascade: try each rule in order with `waitForElement`; the first rule
whose wait resolves a node wins.  Returns the 0-based index of the winning
rule and the time (on that rule's local clock) at which its node was found. -/
def locateRules : List LocRule → Option (Nat × Nat)
  | [] => none
  | r :: rs =>
    match (waitForElement r.present r.muts r.timeout r.pollInterval).found with
    | some t => some (0, t)
    | none => (locateRules rs).map (fun p => (p.1 + 1, p.2))

/-! ## Generation-completion wait: `waitForFlashcardGeneration`
(src/notebooklm_flashcards.js 147-235, used at 583-588)

Polls the studio-panel status region every second for the "Generating
Flashcards" marker; absence of the marker is the completion signal; reaching
the 5-minute bound resolves anyway (timeout is success).  A one-shot check
also runs 100 ms after the call.  The marker's visibility over time is
abstracted by `g : Nat → Bool`. -/

/-- Outcome of the generation wait: elapsed time at resolution, and whether
resolution was due to the maximum wait being reached (`true`) rather than the
marker having disappeared (`false`). -/
structure GenOutcome where
  elapsedMs : Nat
  timedOut : Bool
  deriving DecidableEq, Repr

/-- `maxWaitTime` of `waitForFlashcardGeneration`: 5 minutes. -/
def genMaxWaitMs : Nat := 5 * 60 * 1000

/-- Poll period of `waitForFlashcardGeneration`: one second. -/
def genPollMs : Nat := 1000

/-- The `setInterval` loop of `waitForFlashcardGeneration` from tick `k`
(absolute time `k * genPollMs`): resolve as complete when the marker is gone,
resolve as timed out once `genMaxWaitMs` has elapsed. -/
def genLoop (g : Nat → Bool) : Nat → Nat → GenOutcome
  | 0, k =>
    if g (k * genPollMs) = false then ⟨k * genPollMs, false⟩
    else ⟨k * genPollMs, true⟩
  | fuel + 1, k =>
    if g (k * genPollMs) = false then ⟨k * genPollMs, false⟩
    else if genMaxWaitMs ≤ k * genPollMs then ⟨k * genPollMs, true⟩
    else genLoop g fuel (k + 1)

/-- `waitForFlashcardGeneration`: the one-shot `setTimeout(..., 100)` check
runs first (100 ms < first interval tick); then the polling loop from tick 1.
The fuel 300 covers all ticks up to the 5-minute bound, where the loop always
resolves. -/
def waitForFlashcardGeneration (g : Nat → Bool) : GenOutcome :=
  if g 100 = false then ⟨100, false⟩
  else genLoop g 300 1

/-! ## Upsert-by-name: the existing-source removal of `handleNotebooklmExport`
(src/notebooklm.js 349-557 for the scan-and-remove, 559-697 for the append)

The scan walks the source list in order; an item matches when its display
name equals the requested name, or when the two contain each other as raw
substrings and, after lowercasing and collapsing whitespace runs, one
normalized name contains the other.  The first matching item is removed; a
new source is then created, which appears at the end of the list and is
renamed to the requested name. -/

/-- JavaScript `hay.includes(needle)` on char lists: contiguous substring. -/
def charsContain (needle : List Char) : List Char → Bool
  | [] => needle.isEmpty
  | c :: t => needle.isPrefixOf (c :: t) || charsContain needle t

/-- JavaScript `s.includes(sub)`. -/
def strIncludes (s sub : String) : Bool := charsContain sub.toList s.toList

/-- `replace(/\s+/g, ' ')`: collapse each maximal whitespace run to a single
space.  The flag tracks whether the previous character was whitespace. -/
def collapseWsAux : Bool → List Char → List Char
  | _, [] => []
  | prevWs, c :: rest =>
    if c.isWhitespace then
      if prevWs then collapseWsAux true rest
      else ' ' :: collapseWsAux true rest
    else c :: collapseWsAux false rest

/-- `name.toLowerCase().replace(/\s+/g, ' ')` (src/notebooklm.js 403-404);
lowercasing is per-character. -/
def normalizeName (s : String) : String :=
  String.mk (collapseWsAux false (s.toList.map Char.toLower))

/-- Whether one existing source's display name matches the requested source
name (src/notebooklm.js 393-410): exact equality, else a bidirectional raw
substring check refined by a bidirectional normalized substring check. -/
def sourceMatches (nameToCheck sourceName : String) : Bool :=
  if nameToCheck == sourceName then true
  else if nameToCheck != "" &&
      (strIncludes nameToCheck sourceName || strIncludes sourceName nameToCheck) then
    normIncl (normalizeName nameToCheck) (normalizeName sourceName)
  else false
where normIncl (nn ns : String) : Bool := strIncludes nn ns || strIncludes ns nn

/-- Remove the first source whose name matches (the loop at
src/notebooklm.js 372-411 breaks at the first match; 445-543 removes it). -/
def removeFirstMatching (x : String) : List String → List String
  | [] => []
  | n :: rest => if sourceMatches n x then rest else n :: removeFirstMatching x rest

/-- The whole export-source operation on the level of the source-name list:
remove the first matching existing source, then add the new source (renamed
to `x`) at the end of the list. -/
def upsertSourceByName (sources : List String) (x : String) : List String :=
  removeFirstMatching x sources ++ [x]

/-- Number of sources whose display name matches `x`. -/
def countMatching (x : String) (sources : List String) : Nat :=
  (sources.filter (fun n => sourceMatches n x)).length

/-- Number of sources whose display name is exactly `x`. -/
def countNamed (x : String) (sources : List String) : Nat :=
  (sources.filter (fun n => n == x)).length

/-! ## Action Script responses with the optional rename-after-create step
(src/notebooklm.js 700-945, src/notebooklm_flashcards.js 590-609)

Both creating handlers run inside an outer `try/catch` that turns a thrown
required step into `{success: false, error}`.  The rename sub-step after a
successful creation is wrapped in its own `try/catch` (export) or has its
result/exception folded into the message (flashcards); in both handlers the
final response after a successful creation has `success: true` regardless of
what the rename did.  Step outcomes are modelled as `Except String _`:
`.error e` is a thrown exception with message `e`. -/

/-- The wire response shape `{success, message?, error?}`. -/
structure ActionResponse where
  success : Bool
  message : Option String
  error : Option String
  deriving DecidableEq, Repr

/-- A handler result together with the `console.warn` log of swallowed
failures (the source only warns; the response is unaffected). -/
structure HandlerResult where
  response : ActionResponse
  warnings : List String
  deriving DecidableEq, Repr

/-- `handleNotebooklmExport`, step-skeleton level: `upsertStep` is the
try/caught existing-source check/removal (step 0), `createSteps` the required
add-source steps 1-5, `renameStep` the try/caught rename (step 6). -/
def handleNotebooklmExport (upsertStep createSteps renameStep : Except String Unit) :
    HandlerResult :=
  let w0 : List String :=
    match upsertStep with
    | .error e => ["Error checking/removing existing source: " ++ e]
    | .ok _ => []
  match createSteps with
  | .error e => ⟨⟨false, none, some e⟩, w0⟩
  | .ok _ =>
    match renameStep with
    | .error e =>
      ⟨⟨true, some "Successfully exported to NotebookLM", none⟩,
        w0 ++ ["Error renaming source: " ++ e]⟩
    | .ok _ => ⟨⟨true, some "Successfully exported to NotebookLM", none⟩, w0⟩

/-- The rename result of `renameFlashcard`: the function itself catches its
errors and returns `{success, error?}`, but its caller also guards against a
throw, so the rename outcome is an `Except` of a success flag and an error
message (src/notebooklm_flashcards.js 242-457). -/
def flashcardsRenameMessage (name : String) : Except String (Bool × String) → String
  | .ok (true, _) => "Successfully created and renamed flashcards to \x22" ++ name ++ "\x22"
  | .ok (false, e) => "Successfully created flashcards, but rename failed: " ++ e
  | .error e => "Successfully created flashcards, but rename error: " ++ e

/-- `handleCreateFlashcards`: `selectStep` is the try/caught source selection
(step 1), `createStep` the required create-button-and-generation-wait steps,
then the optional rename when a chapter name is given (steps at lines
590-609). -/
def handleCreateFlashcards (selectStep createStep : Except String Unit)
    (chapterName : Option String) (rename : Except String (Bool × String)) :
    HandlerResult :=
  let w0 : List String :=
    match selectStep with
    | .error e => ["Error selecting source for flashcards: " ++ e]
    | .ok _ => []
  match createStep with
  | .error e => ⟨⟨false, none, some e⟩, w0⟩
  | .ok _ =>
    match chapterName with
    | none => ⟨⟨true, some "Successfully created flashcards", none⟩, w0⟩
    | some name =>
      let w1 : List String :=
        match rename with
        | .ok (true, _) => w0
        | .ok (false, e) => w0 ++ ["Flashcard creation succeeded but rename failed: " ++ e]
        | .error e => w0 ++ ["Flashcard creation succeeded but rename error: " ++ e]
      ⟨⟨true, some (flashcardsRenameMessage name rename), none⟩, w1⟩

/-! ## Workflow Orchestrator: `handlePerformActions` (src/popup.js 1446-1563)

Five actions run in declared order, each selected by a checkbox and each in
its own `try/catch`.  The single cross-action dependency: when "process
highlights" throws and "copy to Notion" is selected, the error is re-thrown,
reaching the outer `try/catch` and skipping every remaining action.  Action
outcomes are modelled as `Except String Unit`. -/

/-- The five workflow actions, in their declared execution order. -/
inductive AName
  | process
  | copyToNotion
  | geminiQuiz
  | addToNotebooklm
  | generateFlashcards
  deriving DecidableEq, Repr

/-- Outcome of one `handlePerformActions` run: the actions attempted in
order, those whose attempt threw (caught and shown as an error status), and
whether the run was aborted by the re-thrown processing error. -/
structure RunOutcome where
  attempted : List AName
  failedActions : List AName
  aborted : Bool
  deriving DecidableEq, Repr

/-- Whether an action outcome is a thrown error. -/
def isErr : Except String Unit → Bool
  | .error _ => true
  | .ok _ => false

/-- Attempt one action: record it as attempted, and as failed when it threw
(each action after the first runs in a `try/catch` that only logs). -/
def attemptOne (res : AName → Except String Unit) (st : RunOutcome) (a : AName) : RunOutcome :=
  { st with
    attempted := st.attempted ++ [a]
    failedActions := if isErr (res a) then st.failedActions ++ [a] else st.failedActions }

/-- The actions after "process highlights", in declared order, filtered by
selection. -/
def laterSelected (sel : AName → Bool) : List AName :=
  [AName.copyToNotion, AName.geminiQuiz, AName.addToNotebooklm,
    AName.generateFlashcards].filter sel

/-- `handlePerformActions`: run "process highlights" first if selected; on a
thrown processing error with "copy to Notion" selected, re-throw to the outer
catch, skipping all remaining actions; otherwise run every remaining selected
action in order, each failure caught locally. -/
def handlePerformActions (sel : AName → Bool) (res : AName → Except String Unit) :
    RunOutcome :=
  let st0 : RunOutcome := ⟨[], [], false⟩
  let st1 := if sel AName.process then attemptOne res st0 AName.process else st0
  if sel AName.process && isErr (res AName.process) && sel AName.copyToNotion then
    { st1 with aborted := true }
  else
    (laterSelected sel).foldl (attemptOne res) st1

/-! ## Text-entry step with character-by-character fallback
(src/notebooklm.js 823-867, the source-rename name input)

The step sets the field's value (native setter), dispatches `input` and
`change`, re-sets the value and dispatches `input` again; it then re-reads
the value, and when the re-read value differs from the intended text and the
text is non-empty it clears the field and types it one character at a time,
dispatching an `input` event after each character. -/

/-- Primitive operations performed on the target input field. -/
inductive FieldOp
  | setValue (s : String)
  | appendChar (c : Char)
  | inputEvent
  | changeEvent
  deriving DecidableEq, Repr

/-- The bulk-assignment attempt (src/notebooklm.js 832-850). -/
def bulkSetOps (target : String) : List FieldOp :=
  [FieldOp.setValue target, FieldOp.inputEvent, FieldOp.changeEvent,
    FieldOp.setValue target, FieldOp.inputEvent]

/-- The character-by-character fallback (src/notebooklm.js 856-864): clear,
then for each character append it and dispatch `input`. -/
def charByCharOps (target : String) : List FieldOp :=
  FieldOp.setValue "" :: target.toList.flatMap (fun c => [FieldOp.appendChar c, FieldOp.inputEvent])

/-- The operation trace of the whole text-entry step, given the value
`observed` re-read from the field after the bulk attempt. -/
structure SetTextTrace where
  usedFallback : Bool
  ops : List FieldOp
  deriving DecidableEq, Repr

/-- The text-entry step: bulk attempt, re-read, and the guarded fallback
(`if (nameInput.value !== sourceName && sourceName.length > 0)`). -/
def setTextStep (observed target : String) : SetTextTrace :=
  if observed != target && target.length > 0 then
    ⟨true, bulkSetOps target ++ charByCharOps target⟩
  else
    ⟨false, bulkSetOps target⟩

/-- State of the input field under the performed operations. -/
structure FieldState where
  value : String
  inputEvents : Nat
  changeEvents : Nat
  deriving DecidableEq, Repr

/-- Effect of one field operation. -/
def applyOp (st : FieldState) : FieldOp → FieldState
  | .setValue s => { st with value := s }
  | .appendChar c => { st with value := st.value.push c }
  | .inputEvent => { st with inputEvents := st.inputEvents + 1 }
  | .changeEvent => { st with changeEvents := st.changeEvents + 1 }

/-- Run a list of field operations. -/
def runOps (st : FieldState) (ops : List FieldOp) : FieldState :=
  ops.foldl applyOp st

/-! ## Section splitter before per-section AI processing
(src/unnamed/part_004, `processHighlightsWithGemini` 81-131)

The raw text is split on newlines; a line matching `/^##\s+.+$/` becomes (and
overwrites) the chapter heading and is skipped; a line matching `/^###\s+.+$/`
closes the current section (pushed when it has a title or any content lines)
and opens a new one titled by the line with its `###` and following
whitespace stripped; any other line is appended to the current section's
content.  A section's final content is its lines joined by newlines and
trimmed.  Only sections with non-empty content are sent to the AI
(`if (section.content)` at line 144).

The regex matchers below assume lines contain no carriage returns or Unicode
line separators (true of the inputs analysed here), under which `/^##\s+.+$/`
accepts exactly: `##`, one whitespace character, then at least one more
character. -/

/-- JavaScript `text.split('\n')` on a character list: the accumulator holds
the current line's characters in reverse. -/
def splitLinesAux : List Char → List Char → List String
  | acc, [] => [String.mk acc.reverse]
  | acc, c :: rest =>
    if c = '\n' then String.mk acc.reverse :: splitLinesAux [] rest
    else splitLinesAux (c :: acc) rest

/-- JavaScript `text.split('\n')`. -/
def splitLines (text : String) : List String :=
  splitLinesAux [] text.toList

/-- JavaScript `s.trim()` (for the whitespace characters `Char.isWhitespace`
covers, which include all the ones occurring in the analysed inputs): drop
whitespace from both ends. -/
def jsTrim (s : String) : String :=
  String.mk (((s.toList.dropWhile Char.isWhitespace).reverse.dropWhile
    Char.isWhitespace).reverse)

/-- A section produced by the splitter. -/
structure GSection where
  title : Option String
  content : String
  deriving DecidableEq, Repr

/-- `/^##\s+.+$/` on a single line (no `\r`): `##`, a whitespace character,
then at least one further character.  A `###` line fails because its third
character is `#`, not whitespace. -/
def isHeading2 (line : String) : Bool :=
  match line.toList with
  | '#' :: '#' :: c :: rest => c.isWhitespace && !rest.isEmpty
  | _ => false

/-- `/^###\s+.+$/` on a single line (no `\r`). -/
def isHeading3 (line : String) : Bool :=
  match line.toList with
  | '#' :: '#' :: '#' :: c :: rest => c.isWhitespace && !rest.isEmpty
  | _ => false

/-- `line.replace(/^###\s+/, '')`: drop the three `#` and the maximal run of
following whitespace (only applied to lines accepted by `isHeading3`). -/
def stripHeading3 (line : String) : String :=
  String.mk ((line.toList.drop 3).dropWhile Char.isWhitespace)

/-- Accumulator of the splitting loop. -/
structure SplitState where
  chapterHeading : Option String
  curTitle : Option String
  curContent : List String
  sections : List GSection
  deriving Repr

/-- Push the current section when it has a title or any content lines
(`currentSection.title !== null || currentSection.content.length > 0`). -/
def pushCur (st : SplitState) : List GSection :=
  if st.curTitle.isSome || !st.curContent.isEmpty then
    st.sections ++ [⟨st.curTitle, jsTrim (String.intercalate "\n" st.curContent)⟩]
  else st.sections

/-- One line of the splitting loop (src/unnamed/part_004 88-115). -/
def splitStep (st : SplitState) (line : String) : SplitState :=
  if isHeading2 line then { st with chapterHeading := some line }
  else if isHeading3 line then
    { chapterHeading := st.chapterHeading
      curTitle := some (stripHeading3 line)
      curContent := []
      sections := pushCur st }
  else { st with curContent := st.curContent ++ [line] }

/-- The splitter: fold over the lines, push the last section, and fall back
to a single title-less section holding the whole trimmed text when no
sections were produced. -/
def extractSections (text : String) : Option String × List GSection :=
  let st := (splitLines text).foldl splitStep ⟨none, none, [], []⟩
  let sections := pushCur st
  (st.chapterHeading, if sections.isEmpty then [⟨none, jsTrim text⟩] else sections)

/-- The sections actually sent to the AI: those with non-empty content
(the `if (section.content)` guard at src/unnamed/part_004 line 144). -/
def processedSectionInputs (text : String) : List GSection :=
  (extractSections text).2.filter (fun s => s.content != "")

/-! ## Kindle highlights parser: `parseKindleHighlights`
(src/unnamed/part_007 64-134, src/popup.js 214-284; the two copies are
identical)

The parser walks the children of the `.bodyContainer` element in order.  A
`sectionHeading` child sets the in-selected-chapter flag by comparing its
trimmed text to the selected chapter with strict `===` equality (and emits a
`##` heading when it matches).  A `noteHeading` child, while inside the
selected chapter, pairs with the immediately following `noteText` child to
emit an optional `### subsection` line and the trimmed highlight text, and
skips that `noteText` child.  The final output is the concatenation of the
emitted chunks, trimmed.

The subsection name is extracted from the note heading by the regex
`/Highlight\([^)]+\) - (.+?) >/`; that extraction is irrelevant to which
highlights are included, so it is abstracted by a parameter
`extractSub : String → String` (empty string meaning no match), and every
theorem below holds for all of its instantiations, in particular the real
regex. -/

/-- A child element of `.bodyContainer`: its class list and text content. -/
structure KElem where
  classes : List String
  text : String
  deriving DecidableEq, Repr

/-- `element.classList.contains(c)`. -/
def classListContains (e : KElem) (c : String) : Bool :=
  e.classes.contains c

/-- A chunk appended to `processedContent` by the parser. -/
inductive KChunk
  | chapter (title : String)
  | subsection (name : String)
  | highlight (text : String)
  deriving DecidableEq, Repr

/-- The literal text each chunk appends. -/
def renderChunk : KChunk → String
  | .chapter t => "\n## " ++ t ++ "\n\n"
  | .subsection s => "### " ++ s ++ "\n"
  | .highlight h => h ++ "\n\n"

/-- The parsing loop (src/unnamed/part_007 82-131), carrying the current
subsection name and the in-selected-chapter flag. -/
def parseChunksLoop (extractSub : String → String) (sel : Option String) :
    List KElem → String → Bool → List KChunk
  | [], _, _ => []
  | e :: rest, sub, inSel =>
    if classListContains e "sectionHeading" then
      match sel with
      | some ch =>
        (if (jsTrim e.text == ch) && jsTrim e.text != "" then
          [KChunk.chapter (jsTrim e.text)] else []) ++
          parseChunksLoop extractSub sel rest sub (jsTrim e.text == ch)
      | none =>
        (if jsTrim e.text != "" then [KChunk.chapter (jsTrim e.text)] else []) ++
          parseChunksLoop extractSub sel rest sub true
    else if classListContains e "noteHeading" && inSel then
      match rest with
      | [] => []
      | nt :: rest' =>
        if classListContains nt "noteText" then
          if jsTrim nt.text != "" then
            (if extractSub (jsTrim e.text) != "" && extractSub (jsTrim e.text) != sub then
              [KChunk.subsection (extractSub (jsTrim e.text))] else []) ++
            KChunk.highlight (jsTrim nt.text) ::
              parseChunksLoop extractSub sel rest'
                (if extractSub (jsTrim e.text) != "" && extractSub (jsTrim e.text) != sub then
                  extractSub (jsTrim e.text) else sub) inSel
          else parseChunksLoop extractSub sel rest' sub inSel
        else parseChunksLoop extractSub sel (nt :: rest') sub inSel
    else parseChunksLoop extractSub sel rest sub inSel

/-- `parseKindleHighlights(htmlContent, selectedChapter)` on the children of
`.bodyContainer`: concatenate the emitted chunks and trim. -/
def parseKindleHighlights (extractSub : String → String) (children : List KElem)
    (sel : Option String) : String :=
  jsTrim (String.join ((parseChunksLoop extractSub sel children "" false).map renderChunk))

/-- Provenance of an included highlight, as the claim states it: the
`noteText` element carrying the highlight directly follows its `noteHeading`,
somewhere after a `sectionHeading` whose trimmed text is exactly the selected
chapter, with no further `sectionHeading` in between. -/
def HighlightProvenance (children : List KElem) (ch t : String) : Prop :=
  ∃ pre hdr mids nh nt rest,
    children = pre ++ hdr :: (mids ++ nh :: nt :: rest) ∧
    classListContains hdr "sectionHeading" = true ∧
    jsTrim hdr.text = ch ∧
    (∀ e ∈ mids, classListContains e "sectionHeading" = false) ∧
    classListContains nh "sectionHeading" = false ∧
    classListContains nh "noteHeading" = true ∧
    classListContains nt "noteText" = true ∧
    jsTrim nt.text = t ∧ t ≠ ""

/-- The same situation without the enclosing chapter heading: a
`noteHeading`/`noteText` pair before any further `sectionHeading` (used for
suffixes of the child list that start inside the selected chapter). -/
def HighlightInRegion (l : List KElem) (t : String) : Prop :=
  ∃ mids nh nt rest,
    l = mids ++ nh :: nt :: rest ∧
    (∀ e ∈ mids, classListContains e "sectionHeading" = false) ∧
    classListContains nh "sectionHeading" = false ∧
    classListContains nh "noteHeading" = true ∧
    classListContains nt "noteText" = true ∧
    jsTrim nt.text = t ∧ t ≠ ""

/-! ## Claim theorems -/

section WaitLemmas

variable {present muts : Nat → Bool} {timeout pollInterval : Nat}

/-- If the element is never present, the observer phase finds nothing. -/
theorem observerPhase_of_never (h : ∀ t, present t = false) (t : Nat) :
    observerPhase present muts t = ⟨none, t + graceMs⟩ := by
  unfold observerPhase
  have hfind : (List.range graceMs).find?
      (fun d => muts (t + 1 + d) && present (t + 1 + d)) = none := by
    apply List.find?_eq_none.mpr
    intro d _
    simp [h]
  rw [hfind]

/-- If the observer phase gives up, it does so exactly at the end of the grace
window. -/
theorem observerPhase_none_elapsed {t : Nat}
    (h : (observerPhase present muts t).found = none) :
    (observerPhase present muts t).elapsedMs = t + graceMs := by
  unfold observerPhase at *
  cases hf : (List.range graceMs).find? (fun d => muts (t + 1 + d) && present (t + 1 + d)) with
  | none => simp [hf]
  | some d => rw [hf] at h; simp at h

/-- If the element is never present, the polling loop resolves `null`. -/
theorem pollLoop_of_never (h : ∀ t, present t = false) :
    ∀ fuel k, (pollLoop present muts timeout pollInterval fuel k).found = none := by
  intro fuel
  induction fuel with
  | zero =>
    intro k
    simp only [pollLoop, h, if_false, Bool.false_eq_true]
    rw [observerPhase_of_never h]
  | succ n ih =>
    intro k
    simp only [pollLoop, h, if_false, Bool.false_eq_true]
    by_cases ht : timeout ≤ k * pollInterval
    · simp only [ht, if_true]
      rw [observerPhase_of_never h]
    · simp only [ht, if_false]
      exact ih (k + 1)

/-- If the polling loop resolves `null`, the observer phase was entered at a
time at or past the timeout, so resolution happened at least a full grace
window after the timeout.  The fuel hypothesis is satisfied by the top-level
call. -/
theorem pollLoop_none_elapsed :
    ∀ fuel k, timeout ≤ (fuel + k) * pollInterval →
      (pollLoop present muts timeout pollInterval fuel k).found = none →
      timeout + graceMs ≤ (pollLoop present muts timeout pollInterval fuel k).elapsedMs := by
  intro fuel
  induction fuel with
  | zero =>
    intro k hinv hnone
    simp only [pollLoop] at hnone ⊢
    by_cases hp : present (k * pollInterval)
    · simp [hp] at hnone
    · simp only [hp, if_false, Bool.false_eq_true] at hnone ⊢
      rw [observerPhase_none_elapsed hnone]
      have : timeout ≤ k * pollInterval := by simpa using hinv
      omega
  | succ n ih =>
    intro k hinv hnone
    simp only [pollLoop] at hnone ⊢
    by_cases hp : present (k * pollInterval)
    · simp [hp] at hnone
    · simp only [hp, if_false, Bool.false_eq_true] at hnone ⊢
      by_cases ht : timeout ≤ k * pollInterval
      · simp only [ht, if_true] at hnone ⊢
        rw [observerPhase_none_elapsed hnone]
        omega
      · simp only [ht, if_false] at hnone ⊢
        have hinv' : timeout ≤ (n + (k + 1)) * pollInterval := by
          have heq : (n + (k + 1)) * pollInterval = (n + 1 + k) * pollInterval := by ring
          omega
        exact ih (k + 1) hinv' hnone

/-- If the element is present from some time `t0 ≤ timeout` onwards, the
polling loop finds it. -/
theorem pollLoop_finds {t0 : Nat} (hmono : ∀ t, t0 ≤ t → present t = true)
    (ht0 : t0 ≤ timeout) :
    ∀ fuel k, timeout ≤ (fuel + k) * pollInterval →
      ∃ tf, (pollLoop present muts timeout pollInterval fuel k).found = some tf := by
  intro fuel
  induction fuel with
  | zero =>
    intro k hinv
    have hp : present (k * pollInterval) = true := by
      apply hmono
      calc t0 ≤ timeout := ht0
        _ ≤ k * pollInterval := by simpa using hinv
    simp only [pollLoop, hp, if_true]
    exact ⟨k * pollInterval, rfl⟩
  | succ n ih =>
    intro k hinv
    by_cases hp : present (k * pollInterval)
    · simp only [pollLoop, hp, if_true]
      exact ⟨k * pollInterval, rfl⟩
    · have hlt : k * pollInterval < t0 := by
        by_contra hge
        exact hp (hmono _ (by omega))
      have hnt : ¬ timeout ≤ k * pollInterval := by omega
      simp only [pollLoop, hp, if_false, hnt, Bool.false_eq_true]
      apply ih (k + 1)
      have : (n + (k + 1)) * pollInterval = (n + 1 + k) * pollInterval := by ring
      omega

end WaitLemmas


/-- C2: for every selector (presence/mutation history), timeout and poll
interval, `waitForElement` resolves — with `null` when no matching node ever
appears — and whenever it resolves `null` the elapsed time is at least the
timeout; the one-shot mutation-observation phase extends the effective wait
once by the fixed `graceMs` window before `null` is returned, so a `null`
resolution in fact elapses at least `timeout + graceMs`. -/
theorem waitForElement_null_after_timeout (present muts : Nat → Bool)
    (timeout pollInterval : Nat) (hpi : 1 ≤ pollInterval) :
    ((∀ t, present t = false) →
      (waitForElement present muts timeout pollInterval).found = none) ∧
    ((waitForElement present muts timeout pollInterval).found = none →
      timeout ≤ (waitForElement present muts timeout pollInterval).elapsedMs ∧
      timeout + graceMs ≤ (waitForElement present muts timeout pollInterval).elapsedMs) := by
  constructor
  · intro h
    unfold waitForElement
    simp only [h, if_false, Bool.false_eq_true]
    exact pollLoop_of_never h (timeout + 1) 1
  · intro hnone
    unfold waitForElement at *
    by_cases hp : present 0
    · simp [hp] at hnone
    · simp only [hp, if_false, Bool.false_eq_true] at hnone ⊢
      have hinv : timeout ≤ (timeout + 1 + 1) * pollInterval := by
        calc timeout ≤ (timeout + 1 + 1) * 1 := by omega
          _ ≤ (timeout + 1 + 1) * pollInterval := Nat.mul_le_mul_left _ hpi
      have h2 := @pollLoop_none_elapsed present muts timeout pollInterval (timeout + 1) 1
        hinv hnone
      exact ⟨by omega, h2⟩

/-- C2 witness: a concrete never-present selector with timeout 5 ms and poll
interval 2 ms resolves `null` after at least `5 + graceMs` ms. -/
theorem waitForElement_null_after_timeout_witness :
    (waitForElement (fun _ => false) (fun _ => false) 5 2).found = none ∧
    5 + graceMs ≤ (waitForElement (fun _ => false) (fun _ => false) 5 2).elapsedMs := by
  have h := waitForElement_null_after_timeout (fun _ => false) (fun _ => false) 5 2 (by decide)
  have hnone := h.1 (fun t => rfl)
  exact ⟨hnone, (h.2 hnone).2⟩

/-- C7: for every selector and timeout, `waitForElementToDisappear` always
resolves: immediately when the element is absent at the call, at the moment
of absence when it disappears during polling (`disappeared = true` implies
the element is absent at resolution), and at the latest one poll period past
the timeout even when the element never disappears (in which case at least
the full timeout has elapsed). -/
theorem waitForElementToDisappear_always_resolves (present : Nat → Bool) (timeout : Nat) :
    (present 0 = false → waitForElementToDisappear present timeout = ⟨0, true⟩) ∧
    ((waitForElementToDisappear present timeout).disappeared = true →
      present (waitForElementToDisappear present timeout).elapsedMs = false) ∧
    ((waitForElementToDisappear present timeout).disappeared = false →
      timeout ≤ (waitForElementToDisappear present timeout).elapsedMs) ∧
    (waitForElementToDisappear present timeout).elapsedMs ≤ timeout + disappearPollMs := by
  have habsent : ∀ fuel k, (disLoop present timeout fuel k).disappeared = true →
      present (disLoop present timeout fuel k).elapsedMs = false := by
    intro fuel
    induction fuel with
    | zero =>
      intro k h
      simp only [disLoop] at h ⊢
      by_cases hp : present (k * disappearPollMs)
      · simp [hp] at h
      · simp only [hp, if_false, Bool.false_eq_true] at h ⊢
    | succ n ih =>
      intro k h
      simp only [disLoop] at h ⊢
      by_cases hp : present (k * disappearPollMs)
      · simp only [hp, Bool.not_true, if_false, Bool.false_eq_true] at h ⊢
        by_cases ht : timeout ≤ k * disappearPollMs
        · simp [ht] at h
        · simp only [ht, if_false] at h ⊢
          exact ih (k + 1) h
      · simp only [hp, Bool.false_eq_true, Bool.not_false, if_true] at h ⊢
  have htimeout : ∀ fuel k, timeout ≤ (fuel + k) * disappearPollMs →
      (disLoop present timeout fuel k).disappeared = false →
      timeout ≤ (disLoop present timeout fuel k).elapsedMs := by
    intro fuel
    induction fuel with
    | zero =>
      intro k hinv h
      simp only [disLoop] at h ⊢
      by_cases hp : present (k * disappearPollMs)
      · simp only [hp, if_true]
        simpa using hinv
      · simp [hp] at h
    | succ n ih =>
      intro k hinv h
      simp only [disLoop] at h ⊢
      by_cases hp : present (k * disappearPollMs)
      · simp only [hp, Bool.not_true, if_false, Bool.false_eq_true] at h ⊢
        by_cases ht : timeout ≤ k * disappearPollMs
        · simp [ht]
        · simp only [ht, if_false] at h ⊢
          apply ih (k + 1) _ h
          have heq : (n + (k + 1)) * disappearPollMs = (n + 1 + k) * disappearPollMs := by ring
          omega
      · simp [hp] at h
  have hbound : ∀ fuel k, k * disappearPollMs ≤ timeout + disappearPollMs →
      (disLoop present timeout fuel k).elapsedMs ≤ timeout + disappearPollMs := by
    intro fuel
    induction fuel with
    | zero =>
      intro k hinv
      simp only [disLoop]
      by_cases hp : present (k * disappearPollMs)
      · simpa [hp] using hinv
      · simpa [hp] using hinv
    | succ n ih =>
      intro k hinv
      simp only [disLoop]
      by_cases hp : present (k * disappearPollMs)
      · simp only [hp, Bool.not_true, if_false, Bool.false_eq_true]
        by_cases ht : timeout ≤ k * disappearPollMs
        · simpa [ht] using hinv
        · simp only [ht, if_false]
          apply ih (k + 1)
          have : (k + 1) * disappearPollMs = k * disappearPollMs + disappearPollMs := by ring
          have hlt : ¬ timeout ≤ k * disappearPollMs := ht
          omega
      · simpa [hp] using hinv
  refine ⟨?_, ?_, ?_, ?_⟩
  · intro h
    unfold waitForElementToDisappear
    simp [h]
  · intro h
    unfold waitForElementToDisappear at *
    by_cases hp : present 0
    · simp only [hp, Bool.not_true, if_false, Bool.false_eq_true] at h ⊢
      exact habsent (timeout + 1) 1 h
    · simp only [hp, Bool.false_eq_true, Bool.not_false, if_true] at h ⊢
  · intro h
    unfold waitForElementToDisappear at *
    by_cases hp : present 0
    · simp only [hp, Bool.not_true, if_false, Bool.false_eq_true] at h ⊢
      apply htimeout (timeout + 1) 1 _ h
      have : disappearPollMs = 100 := rfl
      nlinarith [Nat.zero_le timeout]
    · simp [hp] at h
  · unfold waitForElementToDisappear
    by_cases hp : present 0
    · simp only [hp, Bool.not_true, if_false, Bool.false_eq_true]
      apply hbound (timeout + 1) 1
      have : disappearPollMs = 100 := rfl
      omega
    · simp [hp]

/-- C3: for every locator cascade of `N` ordered candidate rules, if the last
rule's target is present (and stays present) from some time `t0` within that
rule's timeout while no earlier rule's target ever exists, the cascade
resolves to the last — `N`th — rule's node (0-based index `rules.length`). -/
theorem locateRules_last_rule_wins (rules : List LocRule) (last : LocRule) (t0 : Nat)
    (hearlier : ∀ r ∈ rules, ∀ t, r.present t = false)
    (hpi : 1 ≤ last.pollInterval)
    (hmono : ∀ t, t0 ≤ t → last.present t = true)
    (ht0 : t0 ≤ last.timeout) :
    ∃ tf, locateRules (rules ++ [last]) = some (rules.length, tf) := by
  induction rules with
  | nil =>
    have hfound : ∃ tf, (waitForElement last.present last.muts last.timeout
        last.pollInterval).found = some tf := by
      by_cases hp : last.present 0
      · exact ⟨0, by simp [waitForElement, hp]⟩
      · have hinv : last.timeout ≤ (last.timeout + 1 + 1) * last.pollInterval := by
          calc last.timeout ≤ (last.timeout + 1 + 1) * 1 := by omega
            _ ≤ (last.timeout + 1 + 1) * last.pollInterval := Nat.mul_le_mul_left _ hpi
        have h := @pollLoop_finds last.present last.muts last.timeout last.pollInterval t0
          hmono ht0 (last.timeout + 1) 1 hinv
        simpa [waitForElement, hp] using h
      
    obtain ⟨tf, htf⟩ := hfound
    exact ⟨tf, by simp [locateRules, htf]⟩
  | cons r rs ih =>
    have hrnone : (waitForElement r.present r.muts r.timeout r.pollInterval).found = none := by
      have hr := hearlier r (by simp)
      unfold waitForElement
      simp only [hr 0, if_false, Bool.false_eq_true]
      exact pollLoop_of_never hr (r.timeout + 1) 1
    obtain ⟨tf, htf⟩ := ih (fun r' hr' t => hearlier r' (by simp [hr']) t)
    refine ⟨tf, ?_⟩
    have htf' : locateRules (rs.append [last]) = some (rs.length, tf) := htf
    simp only [List.cons_append, locateRules, hrnone, htf', Option.map_some, List.length_cons]
    rfl

/-- C3 witness: a cascade of one never-matching rule followed by a rule whose
target is present from the start resolves to the second rule (index 1). -/
theorem locateRules_last_rule_wins_witness :
    ∃ tf, locateRules [⟨fun _ => false, fun _ => false, 3, 1⟩,
      ⟨fun _ => true, fun _ => false, 2, 1⟩] = some (1, tf) := by
  have h := locateRules_last_rule_wins [⟨fun _ => false, fun _ => false, 3, 1⟩]
    ⟨fun _ => true, fun _ => false, 2, 1⟩ 0
    (by intro r hr t; simp at hr; simp [hr]) (by decide)
    (by intro t ht; rfl) (by decide)
  simpa using h

/-- Helper: the generation-wait loop resolves no later than any tick at which
the marker is absent. -/
theorem genLoop_le_absent_tick (g : Nat → Bool) (K : Nat) (habs : g (K * genPollMs) = false) :
    ∀ fuel k, k ≤ K → (genLoop g fuel k).elapsedMs ≤ K * genPollMs := by
  intro fuel
  induction fuel with
  | zero =>
    intro k hk
    have hmul : k * genPollMs ≤ K * genPollMs := Nat.mul_le_mul_right _ hk
    cases hg : g (k * genPollMs) with
    | false => simpa [genLoop, hg]
    | true => simpa [genLoop, hg]
  | succ n ih =>
    intro k hk
    have hmul : k * genPollMs ≤ K * genPollMs := Nat.mul_le_mul_right _ hk
    cases hg : g (k * genPollMs) with
    | false => simpa [genLoop, hg]
    | true =>
      have hkK : k < K := by
        rcases Nat.lt_or_ge k K with h | h
        · exact h
        · rw [Nat.le_antisymm hk h, habs] at hg
          exact absurd hg (by simp)
      by_cases ht : genMaxWaitMs ≤ k * genPollMs
      · simp only [genLoop, hg, Bool.true_eq_false, if_false]
        rw [if_pos ht]
        exact hmul
      · simp only [genLoop, hg, Bool.true_eq_false, if_false, ht]
        exact ih (k + 1) hkK

/-- Helper: the generation-wait loop always resolves within the maximum wait
bound (invariant: the current tick is still within the bound). -/
theorem genLoop_le_max (g : Nat → Bool) :
    ∀ fuel k, k * genPollMs ≤ genMaxWaitMs →
      (genLoop g fuel k).elapsedMs ≤ genMaxWaitMs := by
  intro fuel
  induction fuel with
  | zero =>
    intro k hk
    cases hg : g (k * genPollMs) with
    | false => simpa [genLoop, hg]
    | true => simpa [genLoop, hg]
  | succ n ih =>
    intro k hk
    cases hg : g (k * genPollMs) with
    | false => simpa [genLoop, hg]
    | true =>
      by_cases ht : genMaxWaitMs ≤ k * genPollMs
      · simp only [genLoop, hg, Bool.true_eq_false, if_false]
        rw [if_pos ht]
        exact hk
      · simp only [genLoop, hg, Bool.true_eq_false, if_false, ht]
        apply ih (k + 1)
        have hgp : genPollMs = 1000 := rfl
        have hmx : genMaxWaitMs = 300000 := rfl
        rw [hgp, hmx] at hk ht ⊢
        omega

/-- Helper: the generation-wait loop reports a timeout only at or past the
maximum wait bound. -/
theorem genLoop_timedOut_ge_max (g : Nat → Bool) :
    ∀ fuel k, genMaxWaitMs ≤ (fuel + k) * genPollMs →
      (genLoop g fuel k).timedOut = true →
      genMaxWaitMs ≤ (genLoop g fuel k).elapsedMs := by
  intro fuel
  induction fuel with
  | zero =>
    intro k hinv h
    cases hg : g (k * genPollMs) with
    | false => simp [genLoop, hg] at h
    | true =>
      simp only [genLoop, hg, Bool.true_eq_false, if_false]
      exact le_of_le_of_eq hinv (by ring)
  | succ n ih =>
    intro k hinv h
    cases hg : g (k * genPollMs) with
    | false => simp [genLoop, hg] at h
    | true =>
      by_cases ht : genMaxWaitMs ≤ k * genPollMs
      · simp only [genLoop, hg, Bool.true_eq_false, if_false]
        rw [if_pos ht]
        exact ht
      · simp only [genLoop, hg, Bool.true_eq_false, if_false, ht] at h ⊢
        apply ih (k + 1) _ h
        have heq : (n + (k + 1)) * genPollMs = (n + 1 + k) * genPollMs := by ring
        omega

/-- C6: the generation-completion wait resolves as soon as a poll tick sees
the "generating" marker absent — no later than any marker-absent tick, hence
without waiting the full maximum bound — and for every marker history it
resolves within the maximum wait (timeout resolves successfully rather than
erroring), reporting a timeout only when the full bound has elapsed. -/
theorem waitForFlashcardGeneration_completes_early (g : Nat → Bool) (K : Nat)
    (hK : 1 ≤ K) (habs : g (K * genPollMs) = false) :
    (waitForFlashcardGeneration g).elapsedMs ≤ K * genPollMs ∧
    (∀ g', (waitForFlashcardGeneration g').elapsedMs ≤ genMaxWaitMs) ∧
    (∀ g', (waitForFlashcardGeneration g').timedOut = true →
      genMaxWaitMs ≤ (waitForFlashcardGeneration g').elapsedMs) := by
  refine ⟨?_, ?_, ?_⟩
  · unfold waitForFlashcardGeneration
    by_cases hg : g 100 = false
    · simp only [hg, if_true]
      have hgp : genPollMs = 1000 := rfl
      have : 1 * genPollMs ≤ K * genPollMs := Nat.mul_le_mul_right _ hK
      rw [hgp] at this ⊢
      omega
    · simp only [hg, if_false, Bool.false_eq_true]
      exact genLoop_le_absent_tick g K habs 300 1 hK
  · intro g'
    unfold waitForFlashcardGeneration
    by_cases hg : g' 100 = false
    · simp [hg, genMaxWaitMs]
    · simp only [hg, if_false, Bool.false_eq_true]
      exact genLoop_le_max g' 300 1 (by decide)
  · intro g' h
    unfold waitForFlashcardGeneration at *
    by_cases hg : g' 100 = false
    · simp [hg] at h
    · simp only [hg, if_false, Bool.false_eq_true] at h ⊢
      exact genLoop_timedOut_ge_max g' 300 1 (by decide) h

/-- C6 witness: with the marker present for exactly the first 2000 ms, the
wait resolves by the 3-second tick, not as a timeout. -/
theorem waitForFlashcardGeneration_completes_early_witness :
    (waitForFlashcardGeneration (fun t => decide (t ≤ 2000))).elapsedMs ≤ 3 * genPollMs ∧
    (waitForFlashcardGeneration (fun t => decide (t ≤ 2000))).timedOut = false := by
  have h := waitForFlashcardGeneration_completes_early (fun t => decide (t ≤ 2000)) 3
    (by decide) (by decide)
  refine ⟨h.1, ?_⟩
  by_cases hT : (waitForFlashcardGeneration (fun t => decide (t ≤ 2000))).timedOut = true
  · have h1 := h.2.2 _ hT
    have h2 := h.1
    have hgp : genPollMs = 1000 := rfl
    have hmx : genMaxWaitMs = 300000 := rfl
    rw [hgp] at h2
    rw [hmx] at h1
    omega
  · simpa using hT

/-- Helper: a source named exactly like the requested name matches it. -/
theorem sourceMatches_self (x : String) : sourceMatches x x = true := by
  simp [sourceMatches]

/-- Helper: removing the first match from a list with no matches before a
final exact item removes exactly that item. -/
theorem removeFirstMatching_append_self {a : List String} {x : String}
    (h : ∀ n ∈ a, sourceMatches n x = false) :
    removeFirstMatching x (a ++ [x]) = a := by
  induction a with
  | nil => simp [removeFirstMatching, sourceMatches_self]
  | cons n t ih =>
    have hn : sourceMatches n x = false := h n (by simp)
    simp only [List.cons_append, removeFirstMatching, hn, Bool.false_eq_true, if_false,
      List.cons.injEq, true_and]
    exact ih (fun m hm => h m (by simp [hm]))

/-- Helper: appending the requested name to a list of non-matching names
yields exactly one source with that exact name. -/
theorem countNamed_append_self {a : List String} {x : String}
    (h : ∀ n ∈ a, sourceMatches n x = false) :
    countNamed x (a ++ [x]) = 1 := by
  induction a with
  | nil => simp [countNamed]
  | cons n t ih =>
    have hn : sourceMatches n x = false := h n (by simp)
    have hne : (n == x) = false := by
      cases heq : n == x with
      | false => rfl
      | true =>
        rw [eq_of_beq heq, sourceMatches_self x] at hn
        exact absurd hn (by simp)
    have := ih (fun m hm => h m (by simp [hm]))
    simpa [countNamed, List.filter, hne] using this

/-- Helper: when at most one existing source matches, no source remaining
after the first-match removal matches. -/
theorem removeFirstMatching_no_match {s : List String} {x : String}
    (h : countMatching x s ≤ 1) :
    ∀ n ∈ removeFirstMatching x s, sourceMatches n x = false := by
  induction s with
  | nil => simp [removeFirstMatching]
  | cons n t ih =>
    cases hn : sourceMatches n x with
    | true =>
      intro m hm
      simp only [removeFirstMatching, hn, if_true] at hm
      have hcount : countMatching x t = 0 := by
        simp only [countMatching, List.filter, hn, List.length_cons] at h ⊢
        omega
      have : ∀ m ∈ t, sourceMatches m x = false := by
        intro m hm'
        cases hsm : sourceMatches m x with
        | false => rfl
        | true =>
          exfalso
          have hmem : m ∈ t.filter (fun n => sourceMatches n x) :=
            List.mem_filter.mpr ⟨hm', hsm⟩
          rw [countMatching, List.length_eq_zero] at hcount
          simp [hcount] at hmem
      exact this m hm
    | false =>
      intro m hm
      simp only [removeFirstMatching, hn, Bool.false_eq_true, if_false, List.mem_cons] at hm
      rcases hm with rfl | hm
      · exact hn
      · apply ih _ m hm
        simp only [countMatching, List.filter, hn] at h ⊢
        simpa using h

/-- C4 counterexample: with two existing sources that merely contain the
requested name "X" as a substring, running the export-source operation twice
leaves two sources named "X", not one — each run deletes only the first
matching source in list order, so the first run's freshly added "X" survives
the second run alongside its new "X". -/
theorem upsertSourceByName_twice_two_sources :
    upsertSourceByName (upsertSourceByName ["AX", "XB"] "X") "X" = ["X", "X"] ∧
    countNamed "X" (upsertSourceByName (upsertSourceByName ["AX", "XB"] "X") "X") = 2 := by
  constructor <;> rfl

/-- C4 amended: when at most one existing source matches the requested name
`x` (by the source's exact-or-bidirectional-substring test), the
export-source operation is idempotent — a second run reproduces the same
source list — and the result contains exactly one source named `x`. -/
theorem upsertSourceByName_idempotent_of_unique (sources : List String) (x : String)
    (h : countMatching x sources ≤ 1) :
    upsertSourceByName (upsertSourceByName sources x) x = upsertSourceByName sources x ∧
    countNamed x (upsertSourceByName (upsertSourceByName sources x) x) = 1 := by
  have hnom := removeFirstMatching_no_match h
  have h1 : upsertSourceByName (upsertSourceByName sources x) x =
      upsertSourceByName sources x := by
    unfold upsertSourceByName
    rw [removeFirstMatching_append_self hnom]
  refine ⟨h1, ?_⟩
  rw [h1]
  exact countNamed_append_self hnom

/-- C4 amended witness: a concrete list with no matching source, upserted
twice, keeps a single source with the requested name. -/
theorem upsertSourceByName_idempotent_of_unique_witness :
    upsertSourceByName (upsertSourceByName ["Book"] "Ch") "Ch" =
      upsertSourceByName ["Book"] "Ch" ∧
    countNamed "Ch" (upsertSourceByName (upsertSourceByName ["Book"] "Ch") "Ch") = 1 :=
  upsertSourceByName_idempotent_of_unique ["Book"] "Ch" (by decide)

/-- C5: for both creating Action Scripts (export source, create flashcards),
the outcome of the optional rename-after-create sub-step never changes the
reported `success`: two runs differing only in the rename outcome report the
same `success`, and whenever the required creation steps succeeded the
response has `success = true`, whatever the rename did (including a thrown
exception). -/
theorem rename_failure_never_fails_creation
    (upsertStep createSteps r r' : Except String Unit)
    (selectStep createStep : Except String Unit) (cn : Option String)
    (fr fr' : Except String (Bool × String)) :
    ((handleNotebooklmExport upsertStep createSteps r).response.success =
      (handleNotebooklmExport upsertStep createSteps r').response.success) ∧
    (createSteps = .ok () →
      (handleNotebooklmExport upsertStep createSteps r).response.success = true) ∧
    ((handleCreateFlashcards selectStep createStep cn fr).response.success =
      (handleCreateFlashcards selectStep createStep cn fr').response.success) ∧
    (createStep = .ok () →
      (handleCreateFlashcards selectStep createStep cn fr).response.success = true) := by
  refine ⟨?_, ?_, ?_, ?_⟩
  · cases createSteps <;> cases r <;> cases r' <;> simp [handleNotebooklmExport]
  · rintro rfl
    cases r <;> simp [handleNotebooklmExport]
  · cases createStep <;> cases cn <;> simp [handleCreateFlashcards]
  · rintro rfl
    cases cn <;> simp [handleCreateFlashcards]

/-- C5 witness: with successful creation steps, a thrown rename still yields
`success = true` in both handlers. -/
theorem rename_failure_never_fails_creation_witness :
    (handleNotebooklmExport (.ok ()) (.ok ()) (.error "rename broke")).response.success = true ∧
    (handleCreateFlashcards (.ok ()) (.ok ()) (some "Ch")
      (.error "rename broke")).response.success = true := by
  have h := rename_failure_never_fails_creation (.ok ()) (.ok ()) (.error "rename broke")
    (.error "rename broke") (.ok ()) (.ok ()) (some "Ch") (.error "rename broke")
    (.error "rename broke")
  exact ⟨h.2.1 rfl, h.2.2.2 rfl⟩

/-- Helper: folding `attemptOne` over a list appends exactly that list to the
attempted actions and never changes the aborted flag. -/
theorem foldl_attemptOne (res : AName → Except String Unit) :
    ∀ (l : List AName) (st : RunOutcome),
      (l.foldl (attemptOne res) st).attempted = st.attempted ++ l ∧
      (l.foldl (attemptOne res) st).aborted = st.aborted := by
  intro l
  induction l with
  | nil => intro st; simp
  | cons a t ih =>
    intro st
    have h := ih (attemptOne res st a)
    simpa [attemptOne] using h

/-- C1 counterexample: with every action selected and only "process
highlights" failing, the run attempts nothing but the processing action — the
independent later actions (Gemini quiz, NotebookLM export, flashcards) are
skipped rather than executed, contradicting the claim that they still run. -/
theorem handlePerformActions_abort_skips_independent :
    handlePerformActions (fun _ => true)
      (fun a => match a with
        | AName.process => Except.error "processing failed"
        | _ => Except.ok ()) =
      ⟨[AName.process], [AName.process], true⟩ ∧
    AName.geminiQuiz ∉ (handlePerformActions (fun _ => true)
      (fun a => match a with
        | AName.process => Except.error "processing failed"
        | _ => Except.ok ())).attempted ∧
    AName.generateFlashcards ∉ (handlePerformActions (fun _ => true)
      (fun a => match a with
        | AName.process => Except.error "processing failed"
        | _ => Except.ok ())).attempted := by
  refine ⟨rfl, ?_, ?_⟩ <;> decide

/-- C1 amended: when "process highlights" is selected, fails, and "copy to
Notion" is also selected, the re-thrown error aborts the whole remainder of
the run — no later action is attempted (copy to Notion is not reported as
failed, merely never attempted); in every other situation all selected
actions are attempted in order, each failure confined to its own action. -/
theorem handlePerformActions_abort_characterization (sel : AName → Bool)
    (res : AName → Except String Unit) :
    (sel AName.process = true → isErr (res AName.process) = true →
      sel AName.copyToNotion = true →
      (handlePerformActions sel res).attempted = [AName.process] ∧
      (handlePerformActions sel res).aborted = true ∧
      AName.copyToNotion ∉ (handlePerformActions sel res).failedActions) ∧
    ((sel AName.process && isErr (res AName.process) && sel AName.copyToNotion) = false →
      (handlePerformActions sel res).attempted =
        (if sel AName.process then [AName.process] else []) ++ laterSelected sel ∧
      (handlePerformActions sel res).aborted = false) := by
  constructor
  · intro hp he hc
    simp [handlePerformActions, hp, he, hc, attemptOne]
  · intro hg
    unfold handlePerformActions
    rw [hg]
    simp only [Bool.false_eq_true, if_false]
    cases hsp : sel AName.process with
    | true =>
      have h := foldl_attemptOne res (laterSelected sel)
        (attemptOne res ⟨[], [], false⟩ AName.process)
      simp only [if_true]
      refine ⟨?_, ?_⟩
      · rw [h.1]
        simp [attemptOne]
      · rw [h.2]
        simp [attemptOne]
    | false =>
      have h := foldl_attemptOne res (laterSelected sel) ⟨[], [], false⟩
      simp only [Bool.false_eq_true, if_false]
      refine ⟨?_, ?_⟩
      · rw [h.1]
      · exact h.2

/-- C1 amended witness: all actions selected and none failing attempts all
five in order with no abort. -/
theorem handlePerformActions_abort_characterization_witness :
    (handlePerformActions (fun _ => true) (fun _ => Except.ok ())).attempted =
      [AName.process, AName.copyToNotion, AName.geminiQuiz, AName.addToNotebooklm,
        AName.generateFlashcards] ∧
    (handlePerformActions (fun _ => true) (fun _ => Except.ok ())).aborted = false := by
  have h := (handlePerformActions_abort_characterization (fun _ => true)
    (fun _ => Except.ok ())).2 (by decide)
  exact ⟨by rw [h.1]; decide, h.2⟩

/-- Helper: a string is non-empty exactly when its length is positive. -/
theorem string_ne_empty_iff_length_pos (s : String) : s ≠ "" ↔ 0 < s.length := by
  cases s with
  | mk data =>
    cases data with
    | nil => simp [String.length]
    | cons c t =>
      simp only [String.length]
      constructor
      · intro _
        simp
      · intro _ hne
        have : (c :: t) = ([] : List Char) := congrArg String.data hne
        simp at this

/-- Helper: folding `String.push` over a character list appends it. -/
theorem foldl_push_eq (cs : List Char) :
    ∀ s : String, cs.foldl String.push s = ⟨s.data ++ cs⟩ := by
  induction cs with
  | nil => intro s; cases s; simp
  | cons c t ih =>
    intro s
    simp only [List.foldl]
    rw [ih (s.push c)]
    cases s
    simp [String.push]

/-- Helper: the per-character operation list types the given characters into
the field, one `input` event per character. -/
theorem runOps_typed_chars (cs : List Char) :
    ∀ st : FieldState,
      runOps st (cs.flatMap (fun c => [FieldOp.appendChar c, FieldOp.inputEvent])) =
        ⟨⟨st.value.data ++ cs⟩, st.inputEvents + cs.length, st.changeEvents⟩ := by
  induction cs with
  | nil =>
    intro st
    cases st with
    | mk v i c =>
      cases v
      simp [runOps]
  | cons c t ih =>
    intro st
    have hhead : runOps st ((c :: t).flatMap
        (fun c => [FieldOp.appendChar c, FieldOp.inputEvent])) =
        runOps ⟨st.value.push c, st.inputEvents + 1, st.changeEvents⟩
          (t.flatMap (fun c => [FieldOp.appendChar c, FieldOp.inputEvent])) := by
      rw [List.flatMap_cons]
      rfl
    rw [hhead, ih ⟨st.value.push c, st.inputEvents + 1, st.changeEvents⟩]
    cases st with
    | mk v i cc =>
      cases v with
      | mk d =>
        simp [String.push]
        omega

/-- C8: the text-entry step falls back to character-by-character typing
exactly when the re-read value differs from the intended text and the text is
non-empty; and the fallback operations, run from any field state, leave the
field holding exactly the intended text, having dispatched one `input` event
per character (after each appended character). -/
theorem setTextStep_fallback_types_target (observed target : String) :
    ((setTextStep observed target).usedFallback = true ↔
      observed ≠ target ∧ target ≠ "") ∧
    (∀ st : FieldState,
      (runOps st (charByCharOps target)).value = target ∧
      (runOps st (charByCharOps target)).inputEvents =
        st.inputEvents + target.length) := by
  constructor
  · unfold setTextStep
    by_cases hcond : (observed != target && decide (target.length > 0)) = true
    · simp only [hcond, if_true]
      have h1 : observed ≠ target := by
        have := (Bool.and_eq_true _ _).mp hcond
        exact bne_iff_ne.mp this.1
      have h2 : target ≠ "" := by
        have := (Bool.and_eq_true _ _).mp hcond
        exact (string_ne_empty_iff_length_pos target).mpr (of_decide_eq_true this.2)
      simp [h1, h2]
    · simp only [hcond, Bool.false_eq_true, if_false]
      constructor
      · intro hfalse
        exact absurd hfalse (by simp)
      · intro ⟨h1, h2⟩
        exact absurd (by
          apply (Bool.and_eq_true _ _).mpr
          exact ⟨bne_iff_ne.mpr h1, decide_eq_true
            ((string_ne_empty_iff_length_pos target).mp h2)⟩) hcond
  · intro st
    unfold charByCharOps
    have hstep : runOps st (FieldOp.setValue "" ::
        target.toList.flatMap (fun c => [FieldOp.appendChar c, FieldOp.inputEvent])) =
        runOps ⟨"", st.inputEvents, st.changeEvents⟩
          (target.toList.flatMap (fun c => [FieldOp.appendChar c, FieldOp.inputEvent])) := by
      simp [runOps, applyOp]
    rw [hstep, runOps_typed_chars]
    constructor
    · show (⟨("" : String).data ++ target.toList⟩ : String) = target
      cases target
      simp
    · show st.inputEvents + target.toList.length = st.inputEvents + target.length
      rfl

/-- C9: on the input `"## Chapter 1\n\n### Intro\nHello world\n\n"`, the
section splitter captures the `## Chapter 1` line as the chapter heading
(not as a section), and exactly one content section — heading `Intro`, body
`Hello world` — reaches per-section AI processing; the title-less empty
section produced between the two heading lines is filtered out by the
non-empty-content guard and never processed. -/
theorem extractSections_scenario :
    (extractSections "## Chapter 1\n\n### Intro\nHello world\n\n").1 =
      some "## Chapter 1" ∧
    processedSectionInputs "## Chapter 1\n\n### Intro\nHello world\n\n" =
      [⟨some "Intro", "Hello world"⟩] := by
  constructor <;> rfl

/-- Helper: provenance is preserved by prepending any element. -/
theorem highlightProvenance_cons {l : List KElem} {ch t : String} (e : KElem)
    (h : HighlightProvenance l ch t) : HighlightProvenance (e :: l) ch t := by
  obtain ⟨pre, hdr, mids, nh, nt, rest, hl, h2⟩ := h
  exact ⟨e :: pre, hdr, mids, nh, nt, rest, by simp [hl], h2⟩

/-- Helper: an in-region pair is preserved by prepending a non-heading
element. -/
theorem highlightInRegion_cons {l : List KElem} {t : String} (e : KElem)
    (he : classListContains e "sectionHeading" = false)
    (h : HighlightInRegion l t) : HighlightInRegion (e :: l) t := by
  obtain ⟨mids, nh, nt, rest, hl, hmids, h2⟩ := h
  refine ⟨e :: mids, nh, nt, rest, by simp [hl], ?_, h2⟩
  intro x hx
  rcases List.mem_cons.mp hx with rfl | hx
  · exact he
  · exact hmids x hx

/-- Helper: an in-region pair behind a matching chapter heading is a full
provenance. -/
theorem highlightProvenance_of_region {l : List KElem} {ch t : String} (hdr : KElem)
    (hs : classListContains hdr "sectionHeading" = true)
    (hc : jsTrim hdr.text = ch)
    (h : HighlightInRegion l t) : HighlightProvenance (hdr :: l) ch t := by
  obtain ⟨mids, nh, nt, rest, hl, hmids, h2⟩ := h
  exact ⟨[], hdr, mids, nh, nt, rest, by simp [hl], hs, hc, hmids, h2⟩

/-- Helper: the main induction for C10 — any highlight chunk the parsing loop
emits comes from a `noteHeading`/`noteText` pair inside the selected chapter
(or, when the loop starts with the in-chapter flag set, possibly from the
region the suffix begins in).  The well-formedness hypothesis rules out
elements carrying both `noteText` and `sectionHeading` classes. -/
theorem parseChunksLoop_highlight_source (es : String → String) (ch t : String) :
    ∀ (n : Nat) (l : List KElem) (sub : String) (inSel : Bool),
      l.length ≤ n →
      (∀ e ∈ l, ¬(classListContains e "noteText" = true ∧
        classListContains e "sectionHeading" = true)) →
      KChunk.highlight t ∈ parseChunksLoop es (some ch) l sub inSel →
      HighlightProvenance l ch t ∨ (inSel = true ∧ HighlightInRegion l t) := by
  intro n
  induction n with
  | zero =>
    intro l sub inSel hlen hwf hmem
    have : l = [] := List.length_eq_zero.mp (Nat.le_zero.mp hlen)
    subst this
    simp [parseChunksLoop] at hmem
  | succ n0 ih =>
    intro l sub inSel hlen hwf hmem
    cases l with
    | nil => simp [parseChunksLoop] at hmem
    | cons e rest =>
      cases rest with
      | nil =>
        rw [parseChunksLoop] at hmem
        split at hmem
        · simp only [parseChunksLoop, List.append_nil] at hmem
          split at hmem <;> simp at hmem
        · split at hmem
          · simp at hmem
          · simp only [parseChunksLoop] at hmem
            simp at hmem
      | cons nt rest' =>
        simp only [parseChunksLoop] at hmem
        cases hS : classListContains e "sectionHeading" with
        | true =>
          simp only [hS, if_true] at hmem
          rcases List.mem_append.mp hmem with hm1 | hm2
          · exfalso
            revert hm1
            split <;> simp
          · have hrest := ih (nt :: rest') sub (jsTrim e.text == ch)
              (by simpa using Nat.le_of_succ_le_succ hlen)
              (fun x hx => hwf x (by simp [hx])) hm2
            rcases hrest with hP | ⟨hflag, hQ⟩
            · exact Or.inl (highlightProvenance_cons e hP)
            · exact Or.inl (highlightProvenance_of_region e hS (eq_of_beq hflag) hQ)
        | false =>
          simp only [hS, Bool.false_eq_true, if_false] at hmem
          cases hN : classListContains e "noteHeading" && inSel with
          | false =>
            simp only [hN, Bool.false_eq_true, if_false] at hmem
            have hrest := ih (nt :: rest') sub inSel
              (by simpa using Nat.le_of_succ_le_succ hlen)
              (fun x hx => hwf x (by simp [hx])) hmem
            rcases hrest with hP | ⟨hflag, hQ⟩
            · exact Or.inl (highlightProvenance_cons e hP)
            · exact Or.inr ⟨hflag, highlightInRegion_cons e hS hQ⟩
          | true =>
            obtain ⟨hN1, hN2⟩ := Bool.and_eq_true _ _ |>.mp hN
            simp only [hN, if_true] at hmem
            have hntS : classListContains nt "noteText" = true →
                classListContains nt "sectionHeading" = false := by
              intro hnt
              cases hx : classListContains nt "sectionHeading" with
              | false => rfl
              | true => exact absurd ⟨hnt, hx⟩ (hwf nt (by simp))
            cases hNT : classListContains nt "noteText" with
            | true =>
              simp only [hNT, if_true] at hmem
              cases hHT : jsTrim nt.text != "" with
              | true =>
                simp only [hHT, if_true] at hmem
                rcases List.mem_append.mp hmem with hm1 | hm2
                · exfalso
                  revert hm1
                  split <;> simp
                · rcases List.mem_cons.mp hm2 with heq | hm3
                  · have ht : jsTrim nt.text = t :=
                      (((KChunk.highlight.injEq _ _).mp heq).symm)
                    refine Or.inr ⟨hN2, [], e, nt, rest', by simp, by simp, hS, hN1, hNT,
                      ht, ?_⟩
                    rw [← ht]
                    exact bne_iff_ne.mp hHT
                  · have hrest := ih rest'
                      (if es (jsTrim e.text) != "" && es (jsTrim e.text) != sub then
                        es (jsTrim e.text) else sub) inSel
                      (by simp at hlen ⊢; omega)
                      (fun x hx => hwf x (by simp [hx])) hm3
                    rcases hrest with hP | ⟨hflag, hQ⟩
                    · exact Or.inl (highlightProvenance_cons e
                        (highlightProvenance_cons nt hP))
                    · exact Or.inr ⟨hflag, highlightInRegion_cons e hS
                        (highlightInRegion_cons nt (hntS hNT) hQ)⟩
              | false =>
                simp only [hHT, Bool.false_eq_true, if_false] at hmem
                have hrest := ih rest' sub inSel
                  (by simp at hlen ⊢; omega)
                  (fun x hx => hwf x (by simp [hx])) hmem
                rcases hrest with hP | ⟨hflag, hQ⟩
                · exact Or.inl (highlightProvenance_cons e
                    (highlightProvenance_cons nt hP))
                · exact Or.inr ⟨hflag, highlightInRegion_cons e hS
                    (highlightInRegion_cons nt (hntS hNT) hQ)⟩
            | false =>
              simp only [hNT, Bool.false_eq_true, if_false] at hmem
              have hrest := ih (nt :: rest') sub inSel
                (by simpa using Nat.le_of_succ_le_succ hlen)
                (fun x hx => hwf x (by simp [hx])) hmem
              rcases hrest with hP | ⟨hflag, hQ⟩
              · exact Or.inl (highlightProvenance_cons e hP)
              · exact Or.inr ⟨hflag, highlightInRegion_cons e hS hQ⟩

/-- Helper: with no section heading matching the selected chapter, the
parsing loop (started outside any selected chapter) emits nothing. -/
theorem parseChunksLoop_no_matching_heading (es : String → String) (ch : String) :
    ∀ (l : List KElem) (sub : String),
      (∀ e ∈ l, classListContains e "sectionHeading" = true → jsTrim e.text ≠ ch) →
      parseChunksLoop es (some ch) l sub false = [] := by
  intro l
  induction l with
  | nil => intro sub h; rfl
  | cons e rest ih =>
    intro sub h
    cases rest with
    | nil =>
      rw [parseChunksLoop]
      cases hS : classListContains e "sectionHeading" with
      | true =>
        have hne : (jsTrim e.text == ch) = false :=
          beq_eq_false_iff_ne.mpr (h e (by simp) hS)
        simp [hS, hne, parseChunksLoop]
      | false =>
        simp [hS, parseChunksLoop]
    | cons nt rest' =>
      simp only [parseChunksLoop]
      cases hS : classListContains e "sectionHeading" with
      | true =>
        have hne : (jsTrim e.text == ch) = false :=
          beq_eq_false_iff_ne.mpr (h e (by simp) hS)
        simp only [hS, if_true, hne, Bool.false_and, Bool.false_eq_true, if_false,
          List.nil_append]
        exact ih sub (fun x hx hx2 => h x (by simp [hx]) hx2)
      | false =>
        simp only [hS, Bool.false_eq_true, if_false, Bool.and_false]
        exact ih sub (fun x hx hx2 => h x (by simp [hx]) hx2)

/-- C10: chapter filtering is by strict, case-sensitive equality of the
trimmed section-heading text.  For every child list (whose elements do not
mix the `noteText` and `sectionHeading` classes) and selected chapter, a
highlight chunk is emitted only if its `noteText` element directly follows a
`noteHeading` inside a region opened by a section heading whose trimmed text
equals the chapter exactly, with no intervening section heading; and if no
section heading's trimmed text equals the chapter — for example when the
name differs only in case or decoration — the parser's output is empty. -/
theorem parseKindleHighlights_exact_chapter_only (extractSub : String → String)
    (children : List KElem) (ch t : String)
    (hwf : ∀ e ∈ children, ¬(classListContains e "noteText" = true ∧
      classListContains e "sectionHeading" = true)) :
    (KChunk.highlight t ∈ parseChunksLoop extractSub (some ch) children "" false →
      HighlightProvenance children ch t) ∧
    ((∀ e ∈ children, classListContains e "sectionHeading" = true → jsTrim e.text ≠ ch) →
      parseKindleHighlights extractSub children (some ch) = "") := by
  constructor
  · intro hmem
    have h := parseChunksLoop_highlight_source extractSub ch t children.length children
      "" false (le_refl _) hwf hmem
    rcases h with hP | ⟨hflag, _⟩
    · exact hP
    · exact absurd hflag (by simp)
  · intro hnone
    unfold parseKindleHighlights
    rw [parseChunksLoop_no_matching_heading extractSub ch children "" hnone]
    rfl

/-- C10 witness: a heading exactly equal to the selected chapter followed by
a note pair produces a highlight whose provenance the theorem certifies. -/
theorem parseKindleHighlights_exact_chapter_only_witness :
    HighlightProvenance
      [⟨["sectionHeading"], "Ch"⟩, ⟨["noteHeading"], "H"⟩, ⟨["noteText"], " hi "⟩]
      "Ch" "hi" :=
  (parseKindleHighlights_exact_chapter_only (fun _ => "")
    [⟨["sectionHeading"], "Ch"⟩, ⟨["noteHeading"], "H"⟩, ⟨["noteText"], " hi "⟩]
    "Ch" "hi" (by decide)).1 (by decide)

/-- C7 witness: an element absent from the start resolves immediately. -/
theorem waitForElementToDisappear_always_resolves_witness :
    waitForElementToDisappear (fun _ => false) 50 = ⟨0, true⟩ :=
  (waitForElementToDisappear_always_resolves (fun _ => false) 50).1 rfl

/-- C8 witness: a bulk write observed as "a" against intended text "ab"
triggers the fallback, and the fallback leaves the field holding "ab". -/
theorem setTextStep_fallback_types_target_witness :
    (setTextStep "a" "ab").usedFallback = true ∧
    (runOps ⟨"", 0, 0⟩ (charByCharOps "ab")).value = "ab" := by
  have h := setTextStep_fallback_types_target "a" "ab"
  exact ⟨h.1.mpr ⟨by decide, by decide⟩, (h.2 ⟨"", 0, 0⟩).1⟩
